import Mathlib

/-!
# PrimePicks link tracker — formal model of `src/server.js`

A shallow embedding of the click-deduplication and counting core of the
PrimePicks link tracker.  The MongoDB collections `user_clicks` and `counts`
become Lean lists of records; the unique indexes declared in `server.js`
(`{userId, linkId, date}` on `user_clicks`, `{linkId}` on `counts`) become the
duplicate test performed before an insert and the single-match semantics of
`findOneAndUpdate`.  Instants are seconds since the Unix epoch (`Nat`), and
`getNairobiDateString` is the fixed UTC+3 (Africa/Nairobi carries no DST)
calendar-date computation that `toLocaleDateString("en-CA", { timeZone:
"Africa/Nairobi" })` performs, producing a `YYYY-MM-DD` string.
-/

/-- Two-digit zero padding used by the `en-CA` date format for month and day. -/
def pad2 (n : Nat) : String :=
  if n < 10 then "0" ++ toString n else toString n

/-- Rendering of a civil (year, month, day) triple as `YYYY-MM-DD`. -/
def formatYMD : Nat × Nat × Nat → String
  | (y, m, d) => toString y ++ "-" ++ pad2 m ++ "-" ++ pad2 d

/-- Civil (Gregorian) date from a count of days since 1970-01-01
(the standard days-to-civil conversion used by date libraries). -/
def civilFromDays (z0 : Nat) : Nat × Nat × Nat :=
  let z := z0 + 719468
  let era := z / 146097
  let doe := z % 146097
  let yoe := (doe - doe / 1460 + doe / 36524 - doe / 146097) / 365
  let doy := doe - (365 * yoe + yoe / 4 - yoe / 100)
  let mp := (5 * doy + 2) / 153
  let d := doy - (153 * mp + 2) / 5 + 1
  let m := if mp < 10 then mp + 3 else mp - 9
  (if m ≤ 2 then era * 400 + yoe + 1 else era * 400 + yoe, m, d)

/-- The function `getNairobiDateString` from `server.js`: the `YYYY-MM-DD` day key of an
instant in the Africa/Nairobi timezone, which is a fixed UTC+3 offset with no
daylight-saving adjustment.  The instant `now` is in seconds since the epoch. -/
def getNairobiDateString (now : Nat) : String :=
  formatYMD (civilFromDays ((now + 3 * 3600) / 86400))

/-- A document of the `user_clicks` collection (the deduplication ledger). -/
structure ClickRecord where
  userId : String
  linkId : String
  linkUrl : String
  date : String
  ts : Nat
deriving DecidableEq, Repr

/-- A document of the `counts` collection (the per-link aggregate counter). -/
structure CountDoc where
  linkId : String
  linkUrl : String
  totalCount : Nat
  createdAt : Nat
deriving DecidableEq, Repr

/-- The database state: the two collections of `server.js`. -/
structure DB where
  user_clicks : List ClickRecord
  counts : List CountDoc
deriving DecidableEq, Repr

/-- The empty database: state before any click is processed. -/
def initDB : DB := ⟨[], []⟩

/-- The duplicate test enforced by the unique index
`{ userId: 1, linkId: 1, date: 1 }` on `user_clicks`: does a record with the
given triple already exist?  `insertOne` raises error code 11000 exactly when
this holds. -/
def hasTriple (ledger : List ClickRecord) (u l d : String) : Bool :=
  ledger.any fun r => r.userId == u && r.linkId == l && r.date == d

/-- The call `counts.findOneAndUpdate({linkId}, { $inc: {totalCount: 1}, $setOnInsert:
{linkId, linkUrl, createdAt} }, { upsert: true, returnDocument: "after" })`.
The unique index on `linkId` makes the matching document unique; on a match
`$inc` bumps `totalCount` and `$setOnInsert` is ignored, on a miss the upsert
inserts a fresh document whose `totalCount` starts at the increment, 1.
Returns the post-update document together with the new collection. -/
def updateCounts : List CountDoc → String → String → Nat → CountDoc × List CountDoc
  | [], l, url, ts =>
    let c : CountDoc := ⟨l, url, 1, ts⟩
    (c, [c])
  | c :: cs, l, url, ts =>
    if c.linkId == l then
      let c' : CountDoc := { c with totalCount := c.totalCount + 1 }
      (c', c' :: cs)
    else
      let r := updateCounts cs l url ts
      (r.1, c :: r.2)

/-- The value of `totalCount` for a link: the matching counter document's
field, or 0 when no counter exists yet. -/
def counterOf : List CountDoc → String → Nat
  | [], _ => 0
  | c :: cs, l => if c.linkId == l then c.totalCount else counterOf cs l

/-- The stored `linkUrl` of a link's counter document, when one exists. -/
def urlOf : List CountDoc → String → Option String
  | [], _ => none
  | c :: cs, l => if c.linkId == l then some c.linkUrl else urlOf cs l

/-- Number of ledger rows recorded for a link. -/
def ledgerCount (db : DB) (l : String) : Nat :=
  (db.user_clicks.filter fun r => r.linkId == l).length

/-- The three outcomes the `POST /api/click` handler can produce on the paths
the storage layer does not fail: the 400 rejection for a missing field, the
`{success:false, alreadyClicked:true}` duplicate response, and the
`{success:true, alreadyClicked:false, totalCount}` counted response. -/
inductive ClickResponse where
  | invalidInput
  | alreadyClicked
  | counted (totalCount : Nat)
deriving DecidableEq, Repr

/-- Does a response report `counted: true` (i.e. `success: true`)? -/
def isCounted : ClickResponse → Bool
  | .counted _ => true
  | _ => false

/-- The `POST /api/click` handler of `server.js` (the spec's `processClick`):
validate that `userId`, `linkId`, `linkUrl` are present and non-empty (a JS
falsy check — a missing field is modelled as `""`), compute the Nairobi day
key, attempt the ledger insert (the unique index rejects a duplicate triple
with `alreadyClicked`), and on success atomically upsert-increment the
counter, answering with the post-update `totalCount`. -/
def processClick (db : DB) (userId linkId linkUrl : String) (now : Nat) :
    ClickResponse × DB :=
  if userId == "" || linkId == "" || linkUrl == "" then
    (.invalidInput, db)
  else
    let date := getNairobiDateString now
    if hasTriple db.user_clicks userId linkId date then
      (.alreadyClicked, db)
    else
      let ledger' := db.user_clicks ++ [⟨userId, linkId, linkUrl, date, now⟩]
      let r := updateCounts db.counts linkId linkUrl now
      (.counted r.1.totalCount, ⟨ledger', r.2⟩)

/-- A click request: the body of a `POST /api/click` together with the instant
at which the handler runs. -/
structure Req where
  userId : String
  linkId : String
  linkUrl : String
  now : Nat
deriving DecidableEq, Repr

/-- Process a sequence of click requests in order, collecting the responses
and threading the database state. -/
def runClicks : DB → List Req → List ClickResponse × DB
  | db, [] => ([], db)
  | db, r :: rs =>
    let p := processClick db r.userId r.linkId r.linkUrl r.now
    let q := runClicks p.2 rs
    (p.1 :: q.1, q.2)

/-- An entry of the `stats` object built by `GET /api/stats`. -/
structure StatItem where
  linkUrl : String
  totalCount : Nat
  createdAt : Nat
deriving DecidableEq, Repr

/-- The `GET /api/stats` handler's query: `counts.find(filter)` where the
filter is `{ linkId: { $in: links } }` when a `?links=` allow-list is given and
`{}` otherwise, each document rendered as `stats[linkId] = { linkUrl,
totalCount, createdAt }`. -/
def getStats (db : DB) (links : Option (List String)) : List (String × StatItem) :=
  (db.counts.filter fun c =>
      match links with
      | some ls => ls.contains c.linkId
      | none => true).map
    fun c => (c.linkId, ⟨c.linkUrl, c.totalCount, c.createdAt⟩)

/-- The `GET /api/stats` handler as a state transformer: it only reads. -/
def statsHandler (db : DB) (links : Option (List String)) :
    (List (String × StatItem)) × DB :=
  (getStats db links, db)

/-- The `GET /api/recent` handler: `user_clicks.find({}).sort({ts: -1})
.limit(200)` — the ledger sorted by descending timestamp, truncated to 200
documents; it only reads. -/
def recentHandler (db : DB) : List ClickRecord × DB :=
  (((db.user_clicks).mergeSort fun a b => b.ts ≤ a.ts).take 200, db)

/-- Modelled from the spec: `listClickedLinksToday` (spec §4.4) has no
implementation under `src/` — `server.js` exposes no such endpoint.  The spec
defines it as a read-only scan of the ledger filtered by `visitorId` and the
current day key (same timezone rule as the ledger insert), returning the set
of linkIds. -/
def listClickedLinksToday (db : DB) (visitorId : String) (now : Nat) : List String :=
  ((db.user_clicks.filter fun r =>
      r.userId == visitorId && r.date == getNairobiDateString now).map
    fun r => r.linkId).dedup

/-- The ledger row that a counted click for a request writes. -/
def rowOf (r : Req) : ClickRecord :=
  ⟨r.userId, r.linkId, r.linkUrl, getNairobiDateString r.now, r.now⟩

/-- The ledger rows contributed by the counted responses of a run: one row per
request whose response was `counted`. -/
def countedRows (ps : List (Req × ClickResponse)) : List ClickRecord :=
  ps.filterMap fun p => if isCounted p.2 then some (rowOf p.1) else none

/-!
## Concurrency model for identical simultaneous clicks

In `server.js` a single `processClick` performs two storage operations, each
individually atomic at the storage layer: the `insertOne` guarded by the
unique ledger index, and the `findOneAndUpdate` upsert-increment.  Concurrent
handler invocations interleave freely between these two operations, so K
simultaneous identical requests are modelled as K tasks, each advancing
through `insert` and then (when the insert succeeded) `increment`, under an
arbitrary schedule of atomic storage steps.  The tasks are identical, so the
task population is tracked by counts per phase. -/

/-- Task population of K identical in-flight `processClick` calls, with the
shared database: `pending` tasks have not reached their insert yet, `mid`
tasks inserted and still owe the counter increment, `dup` tasks finished with
`alreadyClicked`, `cnt` tasks finished with `counted`. -/
structure CState where
  db : DB
  pending : Nat
  mid : Nat
  dup : Nat
  cnt : Nat
deriving DecidableEq, Repr

/-- An atomic storage step of one of the in-flight tasks. -/
inductive Act where
  | doInsert
  | doInc
deriving DecidableEq, Repr

/-- One atomic storage step of the concurrency model, for identical requests
`(u, l, url)` at instant `now`: `doInsert` lets one pending task run its
`insertOne` (succeeding or hitting the unique index), `doInc` lets one task
that inserted run its `findOneAndUpdate` increment.  `none` when no task is
in the phase the action names. -/
def stepAct (u l url : String) (now : Nat) (s : CState) : Act → Option CState
  | .doInsert =>
    match s.pending with
    | 0 => none
    | p + 1 =>
      if hasTriple s.db.user_clicks u l (getNairobiDateString now) then
        some { s with pending := p, dup := s.dup + 1 }
      else
        some { s with
                db := ⟨s.db.user_clicks ++ [⟨u, l, url, getNairobiDateString now, now⟩],
                       s.db.counts⟩,
                pending := p, mid := s.mid + 1 }
  | .doInc =>
    match s.mid with
    | 0 => none
    | m + 1 =>
      some { s with
              db := ⟨s.db.user_clicks, (updateCounts s.db.counts l url now).2⟩,
              mid := m, cnt := s.cnt + 1 }

/-- Run a schedule (a sequence of atomic storage steps) from a state; `none`
when some step names a phase with no task in it. -/
def runSched (u l url : String) (now : Nat) : List Act → CState → Option CState
  | [], s => some s
  | a :: as, s =>
    match stepAct u l url now s a with
    | none => none
    | some s' => runSched u l url now as s'

/-!
## Basic lemmas about the counter upsert
-/

/-- The document returned by the upsert-increment carries the link's previous
total plus one. -/
theorem updateCounts_fst_totalCount (cs : List CountDoc) (l url : String) (ts : Nat) :
    (updateCounts cs l url ts).1.totalCount = counterOf cs l + 1 := by
  induction cs with
  | nil => simp [updateCounts, counterOf]
  | cons c cs ih =>
    by_cases h : c.linkId = l
    · simp [updateCounts, counterOf, h]
    · simp [updateCounts, counterOf, h, ih]

/-- The upsert-increment bumps the link's stored total by one. -/
theorem counterOf_updateCounts_self (cs : List CountDoc) (l url : String) (ts : Nat) :
    counterOf (updateCounts cs l url ts).2 l = counterOf cs l + 1 := by
  induction cs with
  | nil => simp [updateCounts, counterOf]
  | cons c cs ih =>
    by_cases h : c.linkId = l
    · simp [updateCounts, counterOf, h]
    · simp [updateCounts, counterOf, h, ih]

/-- The upsert-increment leaves every other link's total unchanged. -/
theorem counterOf_updateCounts_ne (cs : List CountDoc) (l url : String) (ts : Nat)
    (l' : String) (hne : l' ≠ l) :
    counterOf (updateCounts cs l url ts).2 l' = counterOf cs l' := by
  induction cs with
  | nil => simp [updateCounts, counterOf, hne.symm]
  | cons c cs ih =>
    by_cases h : c.linkId = l
    · simp [updateCounts, counterOf, h, hne, hne.symm]
    · by_cases h' : c.linkId = l'
      · simp [updateCounts, counterOf, h, h', hne, hne.symm]
      · simp [updateCounts, counterOf, h, h', ih]

/-- The upsert keeps the stored `linkUrl` of an existing counter (the update
uses `$setOnInsert`, which writes only on insert) and stores the click's
`linkUrl` when it creates the counter. -/
theorem urlOf_updateCounts (cs : List CountDoc) (l url : String) (ts : Nat) :
    urlOf (updateCounts cs l url ts).2 l = some ((urlOf cs l).getD url) := by
  induction cs with
  | nil => simp [updateCounts, urlOf]
  | cons c cs ih =>
    by_cases h : c.linkId = l
    · simp [updateCounts, urlOf, h]
    · simp [updateCounts, urlOf, h, ih]

/-- Membership among the counter keys after an upsert: the old keys plus the
upserted link. -/
theorem mem_keys_updateCounts (cs : List CountDoc) (l url : String) (ts : Nat)
    (x : String) :
    x ∈ (updateCounts cs l url ts).2.map CountDoc.linkId ↔
      x ∈ cs.map CountDoc.linkId ∨ x = l := by
  induction cs with
  | nil => simp [updateCounts]
  | cons c cs ih =>
    by_cases h : c.linkId = l
    · have hu : (updateCounts (c :: cs) l url ts).2 =
          { c with totalCount := c.totalCount + 1 } :: cs := by
        simp [updateCounts, h]
      rw [hu]
      simp only [List.map_cons, List.mem_cons]
      rw [h]
      tauto
    · have hu : (updateCounts (c :: cs) l url ts).2 =
          c :: (updateCounts cs l url ts).2 := by
        simp [updateCounts, h]
      rw [hu]
      simp only [List.map_cons, List.mem_cons]
      rw [ih]
      tauto

/-- The upsert preserves distinctness of the counter keys (the unique index
on `counts.linkId`). -/
theorem nodup_keys_updateCounts (cs : List CountDoc) (l url : String) (ts : Nat)
    (h : (cs.map CountDoc.linkId).Nodup) :
    ((updateCounts cs l url ts).2.map CountDoc.linkId).Nodup := by
  induction cs with
  | nil => simp [updateCounts]
  | cons c cs ih =>
    rw [List.map_cons, List.nodup_cons] at h
    by_cases hc : c.linkId = l
    · rw [← hc] at *
      simpa [updateCounts, List.nodup_cons] using h
    · have := ih h.2
      simp only [updateCounts, hc]
      simp only [beq_iff_eq, hc, if_false, List.map_cons, List.nodup_cons]
      refine ⟨fun hm => ?_, this⟩
      rcases (mem_keys_updateCounts cs l url ts c.linkId).1 hm with hm' | hm'
      · exact h.1 hm'
      · exact hc hm'

/-- In a counter collection with distinct keys, every document's `totalCount`
is the total that `counterOf` reads for its link. -/
theorem totalCount_of_mem_nodup (cs : List CountDoc)
    (h : (cs.map CountDoc.linkId).Nodup) (c : CountDoc) (hc : c ∈ cs) :
    c.totalCount = counterOf cs c.linkId := by
  induction cs with
  | nil => cases hc
  | cons c0 cs ih =>
    rw [List.map_cons, List.nodup_cons] at h
    rcases List.mem_cons.1 hc with rfl | hc'
    · simp [counterOf]
    · have hne : ¬ c0.linkId = c.linkId := fun he => by
        exact h.1 (he ▸ List.mem_map_of_mem CountDoc.linkId hc')
      simp [counterOf, hne, ih h.2 hc']

/-!
## Shape lemmas for the click handler
-/

/-- A missing or empty field short-circuits the handler: 400 response, no
state change. -/
theorem processClick_invalid (db : DB) (u l url : String) (now : Nat)
    (h : u = "" ∨ l = "" ∨ url = "") :
    processClick db u l url now = (.invalidInput, db) := by
  have hc : (u == "" || l == "" || url == "") = true := by
    rcases h with h | h | h <;> simp [h]
  simp [processClick, hc]

/-- A duplicate triple short-circuits the handler after validation: the
`alreadyClicked` response, no state change. -/
theorem processClick_dup (db : DB) (u l url : String) (now : Nat)
    (hu : u ≠ "") (hl : l ≠ "") (hurl : url ≠ "")
    (hd : hasTriple db.user_clicks u l (getNairobiDateString now) = true) :
    processClick db u l url now = (.alreadyClicked, db) := by
  have hc : (u == "" || l == "" || url == "") = false := by
    simp [hu, hl, hurl]
  simp [processClick, hc, hd]

/-- A valid, non-duplicate click inserts its ledger row and upsert-increments
the counter, answering with the post-increment total. -/
theorem processClick_fresh (db : DB) (u l url : String) (now : Nat)
    (hu : u ≠ "") (hl : l ≠ "") (hurl : url ≠ "")
    (hd : hasTriple db.user_clicks u l (getNairobiDateString now) = false) :
    processClick db u l url now =
      (.counted (counterOf db.counts l + 1),
       ⟨db.user_clicks ++ [⟨u, l, url, getNairobiDateString now, now⟩],
        (updateCounts db.counts l url now).2⟩) := by
  have hc : (u == "" || l == "" || url == "") = false := by
    simp [hu, hl, hurl]
  simp [processClick, hc, hd, updateCounts_fst_totalCount]

/-- Every run of the handler either leaves the database untouched and does
not count the click, or counts it: the response is the incremented total, the
ledger gains exactly the one row, and the counter store is upsert-incremented. -/
theorem processClick_state (db : DB) (u l url : String) (now : Nat) :
    (isCounted (processClick db u l url now).1 = false ∧
      (processClick db u l url now).2 = db) ∨
    ((processClick db u l url now).1 = .counted (counterOf db.counts l + 1) ∧
      (processClick db u l url now).2.user_clicks =
        db.user_clicks ++ [⟨u, l, url, getNairobiDateString now, now⟩] ∧
      (processClick db u l url now).2.counts = (updateCounts db.counts l url now).2) := by
  cases hv : (u == "" || l == "" || url == "") with
  | true =>
    left
    simp [processClick, hv, isCounted]
  | false =>
    cases ht : hasTriple db.user_clicks u l (getNairobiDateString now) with
    | true =>
      left
      simp [processClick, hv, ht, isCounted]
    | false =>
      right
      simp [processClick, hv, ht, updateCounts_fst_totalCount]

/-- A ledger extended with a row for a triple reports that triple as present. -/
theorem hasTriple_append_self (xs : List ClickRecord) (u l url d : String) (ts : Nat) :
    hasTriple (xs ++ [⟨u, l, url, d, ts⟩]) u l d = true := by
  simp [hasTriple]

/-- Appending rows never clears a present triple. -/
theorem hasTriple_append_of (xs ys : List ClickRecord) (u l d : String)
    (h : hasTriple xs u l d = true) :
    hasTriple (xs ++ ys) u l d = true := by
  simp only [hasTriple] at h ⊢
  simp [h]

/-!
## Run-level lemmas
-/

/-- Once the triple is in the ledger, a run of further valid requests for the
same visitor, link and day answers `alreadyClicked` throughout and leaves the
database exactly as it was. -/
theorem runClicks_allDup (u l d : String) (reqs : List Req) (db : DB)
    (hu : u ≠ "") (hl : l ≠ "")
    (hall : ∀ q ∈ reqs, q.userId = u ∧ q.linkId = l ∧ q.linkUrl ≠ "" ∧
      getNairobiDateString q.now = d)
    (hd : hasTriple db.user_clicks u l d = true) :
    runClicks db reqs = (reqs.map fun _ => ClickResponse.alreadyClicked, db) := by
  induction reqs generalizing db with
  | nil => simp [runClicks]
  | cons r rs ih =>
    obtain ⟨h1, h2, h3, h4⟩ := hall r (List.mem_cons_self r rs)
    have hd' : hasTriple db.user_clicks u l (getNairobiDateString r.now) = true := by
      rw [h4]; exact hd
    have hstep : processClick db r.userId r.linkId r.linkUrl r.now =
        (.alreadyClicked, db) := by
      rw [h1, h2]
      exact processClick_dup db u l r.linkUrl r.now hu hl h3 hd'
    have ih' := ih db (fun q hq => hall q (List.mem_cons_of_mem r hq)) hd
    simp [runClicks, hstep, ih']

/-- The final ledger of a run is the initial ledger extended by one row per
counted response, each row built from its request. -/
theorem runClicks_ledger (reqs : List Req) (db : DB) :
    (runClicks db reqs).2.user_clicks =
      db.user_clicks ++ countedRows (reqs.zip (runClicks db reqs).1) := by
  induction reqs generalizing db with
  | nil => simp [runClicks, countedRows]
  | cons r rs ih =>
    rcases processClick_state db r.userId r.linkId r.linkUrl r.now with
      ⟨hF, hS⟩ | ⟨hR, hL, -⟩
    · simp only [runClicks, hS, List.zip_cons_cons]
      simp [countedRows, List.filterMap_cons, hF, ih db]
    · have hF : isCounted (processClick db r.userId r.linkId r.linkUrl r.now).1 = true := by
        rw [hR]; rfl
      simp only [runClicks, List.zip_cons_cons]
      simp [countedRows, List.filterMap_cons, hF, rowOf,
        ih (processClick db r.userId r.linkId r.linkUrl r.now).2, hL]

/-- Counting ledger rows for a link among the rows a run added is counting
the counted responses whose request named that link. -/
theorem countedRows_count (ps : List (Req × ClickResponse)) (l : String) :
    ((countedRows ps).filter fun r => r.linkId == l).length =
      ps.countP fun p => p.1.linkId == l && isCounted p.2 := by
  induction ps with
  | nil => simp [countedRows]
  | cons p ps ih =>
    cases hp : isCounted p.2 with
    | false =>
      have hcons : countedRows (p :: ps) = countedRows ps := by
        simp [countedRows, List.filterMap_cons, hp]
      rw [hcons, List.countP_cons, ih]
      simp [hp]
    | true =>
      have hcons : countedRows (p :: ps) = rowOf p.1 :: countedRows ps := by
        simp [countedRows, List.filterMap_cons, hp]
      rw [hcons, List.countP_cons, List.filter_cons]
      by_cases hx : p.1.linkId = l
      · simp [rowOf, hx, hp, ih]
      · simp [rowOf, hx, hp, ih]

/-- One handler run preserves the consistency invariant: each link's stored
total equals its ledger row count, and the counter keys stay distinct. -/
theorem inv_processClick (db : DB) (u l url : String) (now : Nat)
    (hc : ∀ x, counterOf db.counts x = ledgerCount db x)
    (hn : (db.counts.map CountDoc.linkId).Nodup) :
    (∀ x, counterOf (processClick db u l url now).2.counts x =
      ledgerCount (processClick db u l url now).2 x) ∧
    ((processClick db u l url now).2.counts.map CountDoc.linkId).Nodup := by
  rcases processClick_state db u l url now with ⟨-, hS⟩ | ⟨-, hL, hC⟩
  · rw [hS]; exact ⟨hc, hn⟩
  · constructor
    · intro x
      rw [hC]
      unfold ledgerCount
      rw [hL, List.filter_append, List.length_append]
      by_cases hx : x = l
      · subst hx
        rw [counterOf_updateCounts_self, hc x]
        simp [ledgerCount]
      · rw [counterOf_updateCounts_ne db.counts l url now x hx, hc x]
        have hlx : ¬ l = x := fun h => hx h.symm
        simp [ledgerCount, hlx]
    · rw [hC]
      exact nodup_keys_updateCounts db.counts l url now hn

/-- A whole run preserves the consistency invariant. -/
theorem inv_runClicks (reqs : List Req) (db : DB)
    (hc : ∀ x, counterOf db.counts x = ledgerCount db x)
    (hn : (db.counts.map CountDoc.linkId).Nodup) :
    (∀ x, counterOf (runClicks db reqs).2.counts x =
      ledgerCount (runClicks db reqs).2 x) ∧
    ((runClicks db reqs).2.counts.map CountDoc.linkId).Nodup := by
  induction reqs generalizing db with
  | nil => exact ⟨hc, hn⟩
  | cons r rs ih =>
    obtain ⟨hc', hn'⟩ := inv_processClick db r.userId r.linkId r.linkUrl r.now hc hn
    simpa [runClicks] using ih (processClick db r.userId r.linkId r.linkUrl r.now).2 hc' hn'

/-!
## Read-endpoint lemmas
-/

/-- Membership in the unfiltered stats: exactly one entry per counter
document, carrying its `linkUrl` and `totalCount`. -/
theorem mem_getStats_none (db : DB) (l : String) (e : StatItem) :
    (l, e) ∈ getStats db none ↔
      ∃ c ∈ db.counts, c.linkId = l ∧ e = ⟨c.linkUrl, c.totalCount, c.createdAt⟩ := by
  simp only [getStats, List.filter_true, List.mem_map, Prod.mk.injEq]
  constructor
  · rintro ⟨c, hc, h1, h2⟩
    exact ⟨c, hc, h1, h2.symm⟩
  · rintro ⟨c, hc, h1, h2⟩
    exact ⟨c, hc, h1, h2.symm⟩

/-- Membership in the filtered stats: the unfiltered entry together with
membership of the link in the allow-list. -/
theorem mem_getStats_some (db : DB) (allow : List String) (l : String) (e : StatItem) :
    (l, e) ∈ getStats db (some allow) ↔ l ∈ allow ∧ (l, e) ∈ getStats db none := by
  simp only [getStats, List.filter_true, List.mem_map, List.mem_filter, Prod.mk.injEq]
  constructor
  · rintro ⟨c, ⟨hc, hin⟩, h1, h2⟩
    refine ⟨?_, c, hc, h1, h2⟩
    subst h1
    simpa using hin
  · rintro ⟨hl, c, hc, h1, h2⟩
    refine ⟨c, ⟨hc, ?_⟩, h1, h2⟩
    subst h1
    simpa using hl

/-- Membership in the set `listClickedLinksToday` returns: a ledger row for
this visitor carrying today's day key and that link. -/
theorem mem_listClickedLinksToday (db : DB) (v : String) (now : Nat) (l : String) :
    l ∈ listClickedLinksToday db v now ↔
      ∃ r ∈ db.user_clicks, r.userId = v ∧ r.date = getNairobiDateString now ∧
        r.linkId = l := by
  simp only [listClickedLinksToday, List.mem_dedup, List.mem_map, List.mem_filter,
    Bool.and_eq_true, beq_iff_eq]
  constructor
  · rintro ⟨r, ⟨hr, h1, h2⟩, h3⟩
    exact ⟨r, hr, h1, h2, h3⟩
  · rintro ⟨r, hr, h1, h2, h3⟩
    exact ⟨r, ⟨hr, h1, h2⟩, h3⟩

/-!
## Claim theorems
-/

/-- C3: the day key used for deduplication is the calendar date of the
instant under the fixed UTC+3 offset (Africa/Nairobi, no DST), formatted as
the stable string `YYYY-MM-DD`; consequently a click at 23:59:59 UTC+3-local
(instant 1728075599, day key 2024-10-04) and one at 00:00:01 of the next
UTC+3-local day (instant 1728075601, day key 2024-10-05) receive distinct day
keys, and the same visitor clicking the same link at those two instants is
counted both times. -/
theorem day_key_fixed_utc3_rollover :
    (∀ now : Nat, getNairobiDateString now =
      formatYMD (civilFromDays ((now + 3 * 3600) / 86400))) ∧
    getNairobiDateString 0 = "1970-01-01" ∧
    getNairobiDateString 1728075599 = "2024-10-04" ∧
    getNairobiDateString 1728075601 = "2024-10-05" ∧
    getNairobiDateString 1728075599 ≠ getNairobiDateString 1728075601 ∧
    (runClicks initDB [⟨"v", "apk", "http://x", 1728075599⟩,
        ⟨"v", "apk", "http://x", 1728075601⟩]).1 =
      [ClickResponse.counted 1, ClickResponse.counted 2] := by
  exact ⟨fun now => rfl, by decide, by decide, by decide, by decide, by decide⟩

/-- C4: a `processClick` call in which any of visitorId, linkId, linkUrl is
missing or empty (JS falsiness on strings) fails with the `InvalidInput`
rejection and leaves both the ledger and the counter store unchanged. -/
theorem invalid_input_no_mutation (db : DB) (u l url : String) (now : Nat)
    (h : u = "" ∨ l = "" ∨ url = "") :
    (processClick db u l url now).1 = .invalidInput ∧
    (processClick db u l url now).2.user_clicks = db.user_clicks ∧
    (processClick db u l url now).2.counts = db.counts := by
  rw [processClick_invalid db u l url now h]
  exact ⟨rfl, rfl, rfl⟩

/-- Witness for C4 at the spec's own example `processClick("", "apk",
"http://x")`. -/
theorem invalid_input_no_mutation_witness :
    (processClick initDB "" "apk" "http://x" 0).1 = .invalidInput ∧
    (processClick initDB "" "apk" "http://x" 0).2.user_clicks = initDB.user_clicks ∧
    (processClick initDB "" "apk" "http://x" 0).2.counts = initDB.counts :=
  invalid_input_no_mutation initDB "" "apk" "http://x" 0 (Or.inl rfl)

/-- C6: a counted click answers `counted` with the counter's value after the
increment — the previous total plus one, so 1 when the click creates the
counter (in which case a counter document for the link is created, storing
the click's `linkUrl`). -/
theorem counted_click_totalCount (db : DB) (u l url : String) (now : Nat)
    (hu : u ≠ "") (hl : l ≠ "") (hurl : url ≠ "")
    (h0 : hasTriple db.user_clicks u l (getNairobiDateString now) = false) :
    (processClick db u l url now).1 = .counted (counterOf db.counts l + 1) ∧
    counterOf (processClick db u l url now).2.counts l = counterOf db.counts l + 1 ∧
    (urlOf db.counts l = none →
      urlOf (processClick db u l url now).2.counts l = some url) := by
  rw [processClick_fresh db u l url now hu hl hurl h0]
  refine ⟨rfl, counterOf_updateCounts_self db.counts l url now, fun hn => ?_⟩
  rw [urlOf_updateCounts db.counts l url now, hn]
  rfl

/-- Witness for C6: the first counted click for a link creates its counter
with total 1. -/
theorem counted_click_totalCount_witness :
    (processClick initDB "v" "apk" "http://x" 0).1 =
      .counted (counterOf initDB.counts "apk" + 1) ∧
    counterOf (processClick initDB "v" "apk" "http://x" 0).2.counts "apk" =
      counterOf initDB.counts "apk" + 1 ∧
    (urlOf initDB.counts "apk" = none →
      urlOf (processClick initDB "v" "apk" "http://x" 0).2.counts "apk" =
        some "http://x") :=
  counted_click_totalCount initDB "v" "apk" "http://x" 0
    (by decide) (by decide) (by decide) (by decide)

/-- C7 fails on the code: two counted clicks for the same link with distinct
`linkUrl`s (distinct visitors, same day) leave the counter storing the FIRST
click's `linkUrl`, because the handler passes `linkUrl` only in
`$setOnInsert`; the claimed last-write-wins overwrite does not happen. -/
theorem counter_linkUrl_overwrite_cex :
    (runClicks initDB [⟨"v1", "apk", "http://a", 0⟩,
        ⟨"v2", "apk", "http://b", 0⟩]).1 =
      [ClickResponse.counted 1, ClickResponse.counted 2] ∧
    urlOf (runClicks initDB [⟨"v1", "apk", "http://a", 0⟩,
        ⟨"v2", "apk", "http://b", 0⟩]).2.counts "apk" = some "http://a" ∧
    urlOf (runClicks initDB [⟨"v1", "apk", "http://a", 0⟩,
        ⟨"v2", "apk", "http://b", 0⟩]).2.counts "apk" ≠ some "http://b" := by
  refine ⟨by decide, by decide, by decide⟩

/-- C7 as amended: after a counted click the counter's stored `linkUrl` is
the `linkUrl` of the click that created the counter — set on creation via
`$setOnInsert` and never overwritten by later counted clicks
(first-write-wins). -/
theorem counter_linkUrl_first_write_wins (db : DB) (u l url : String) (now : Nat)
    (hu : u ≠ "") (hl : l ≠ "") (hurl : url ≠ "")
    (h0 : hasTriple db.user_clicks u l (getNairobiDateString now) = false) :
    urlOf (processClick db u l url now).2.counts l =
      some ((urlOf db.counts l).getD url) := by
  rw [processClick_fresh db u l url now hu hl hurl h0]
  exact urlOf_updateCounts db.counts l url now

/-- Witness for the amended C7: a counted click against an existing counter
keeps the stored `linkUrl`. -/
theorem counter_linkUrl_first_write_wins_witness :
    urlOf (processClick ⟨[⟨"v1", "apk", "http://a", "1970-01-01", 0⟩],
        [⟨"apk", "http://a", 1, 0⟩]⟩ "v2" "apk" "http://b" 0).2.counts "apk" =
      some ((urlOf ([⟨"apk", "http://a", 1, 0⟩] : List CountDoc) "apk").getD "http://b") :=
  counter_linkUrl_first_write_wins ⟨[⟨"v1", "apk", "http://a", "1970-01-01", 0⟩],
      [⟨"apk", "http://a", 1, 0⟩]⟩ "v2" "apk" "http://b" 0
    (by decide) (by decide) (by decide) (by decide)

/-- C9: `getStats` with no filter maps every existing counter document to its
`{linkUrl, totalCount}` entry, `getStats` with an allow-list returns exactly
the entries whose linkId is in the list, and the stats handler mutates
nothing. -/
theorem stats_filter_readonly (db : DB) :
    (∀ l e, (l, e) ∈ getStats db none ↔
      ∃ c ∈ db.counts, c.linkId = l ∧ e = ⟨c.linkUrl, c.totalCount, c.createdAt⟩) ∧
    (∀ allow l e, (l, e) ∈ getStats db (some allow) ↔
      l ∈ allow ∧ (l, e) ∈ getStats db none) ∧
    (∀ q, (statsHandler db q).2 = db) :=
  ⟨mem_getStats_none db, mem_getStats_some db, fun _ => rfl⟩

/-- C10: the recent-clicks query returns at most 200 raw ledger documents,
ordered by descending timestamp, all drawn from the ledger, and mutates
nothing. -/
theorem recent_limited_sorted_readonly (db : DB) :
    (recentHandler db).1.length ≤ 200 ∧
    List.Pairwise (fun a b : ClickRecord => b.ts ≤ a.ts) (recentHandler db).1 ∧
    (∀ r ∈ (recentHandler db).1, r ∈ db.user_clicks) ∧
    (recentHandler db).2 = db := by
  refine ⟨List.length_take_le 200 _, ?_, ?_, rfl⟩
  · have hs := @List.sorted_mergeSort ClickRecord
      (fun a b : ClickRecord => decide (b.ts ≤ a.ts))
      (fun a b c hab hbc => by
        simp only [decide_eq_true_eq] at *
        omega)
      (fun a b => by
        simp only [Bool.or_eq_true, decide_eq_true_eq]
        omega)
      db.user_clicks
    have ht := List.Pairwise.sublist (List.take_sublist 200 _) hs
    exact ht.imp fun h => by simpa using h
  · intro r hr
    have h1 : r ∈ (db.user_clicks.mergeSort fun a b => b.ts ≤ a.ts) :=
      (List.take_sublist 200 _).subset hr
    exact (List.mergeSort_perm db.user_clicks _).mem_iff.1 h1

/-- C1: starting from any state in which the (visitor, link, day) triple is
absent, a sequence of `processClick` calls for the same visitor and link on
the same day key answers `counted` on the first call (with the incremented
total) and `alreadyClicked` — not an error — on every later call, so exactly
one response is counted; and the whole run changes the database exactly as
the first call does, the duplicate branch performing no increment and no
other state change. -/
theorem dedup_exactly_once_per_day (u l d : String) (db : DB) (r : Req) (rs : List Req)
    (hu : u ≠ "") (hl : l ≠ "")
    (hall : ∀ q ∈ r :: rs, q.userId = u ∧ q.linkId = l ∧ q.linkUrl ≠ "" ∧
      getNairobiDateString q.now = d)
    (h0 : hasTriple db.user_clicks u l d = false) :
    (runClicks db (r :: rs)).1 =
      ClickResponse.counted (counterOf db.counts l + 1) ::
        rs.map (fun _ => ClickResponse.alreadyClicked) ∧
    (runClicks db (r :: rs)).2 = (processClick db r.userId r.linkId r.linkUrl r.now).2 ∧
    (runClicks db (r :: rs)).1.countP isCounted = 1 := by
  obtain ⟨h1, h2, h3, h4⟩ := hall r (List.mem_cons_self r rs)
  have h0' : hasTriple db.user_clicks u l (getNairobiDateString r.now) = false := by
    rw [h4]; exact h0
  have hstep : processClick db r.userId r.linkId r.linkUrl r.now =
      (.counted (counterOf db.counts l + 1),
       ⟨db.user_clicks ++ [⟨u, l, r.linkUrl, getNairobiDateString r.now, r.now⟩],
        (updateCounts db.counts l r.linkUrl r.now).2⟩) := by
    rw [h1, h2]
    exact processClick_fresh db u l r.linkUrl r.now hu hl h3 h0'
  have hd1 : hasTriple
      (db.user_clicks ++ [⟨u, l, r.linkUrl, getNairobiDateString r.now, r.now⟩])
      u l d = true := by
    rw [← h4]
    exact hasTriple_append_self db.user_clicks u l r.linkUrl
      (getNairobiDateString r.now) r.now
  have hrest := runClicks_allDup u l d rs
      ⟨db.user_clicks ++ [⟨u, l, r.linkUrl, getNairobiDateString r.now, r.now⟩],
       (updateCounts db.counts l r.linkUrl r.now).2⟩
      hu hl (fun q hq => hall q (List.mem_cons_of_mem r hq)) hd1
  have hrun : runClicks db (r :: rs) =
      (ClickResponse.counted (counterOf db.counts l + 1) ::
        rs.map (fun _ => ClickResponse.alreadyClicked),
       ⟨db.user_clicks ++ [⟨u, l, r.linkUrl, getNairobiDateString r.now, r.now⟩],
        (updateCounts db.counts l r.linkUrl r.now).2⟩) := by
    simp only [runClicks, hstep, hrest]
  refine ⟨by rw [hrun], by rw [hrun, hstep], ?_⟩
  rw [hrun]
  simp [List.countP_cons, List.countP_map, isCounted, Function.comp]

/-- Witness for C1: two same-day requests by one visitor for one link — the
first counted, the second a no-op duplicate. -/
theorem dedup_exactly_once_per_day_witness :
    (runClicks initDB [⟨"v", "apk", "http://x", 0⟩, ⟨"v", "apk", "http://y", 5⟩]).1 =
      ClickResponse.counted (counterOf initDB.counts "apk" + 1) ::
        [(⟨"v", "apk", "http://y", 5⟩ : Req)].map
          (fun _ => ClickResponse.alreadyClicked) ∧
    (runClicks initDB [⟨"v", "apk", "http://x", 0⟩, ⟨"v", "apk", "http://y", 5⟩]).2 =
      (processClick initDB "v" "apk" "http://x" 0).2 ∧
    (runClicks initDB
      [⟨"v", "apk", "http://x", 0⟩, ⟨"v", "apk", "http://y", 5⟩]).1.countP isCounted
      = 1 :=
  dedup_exactly_once_per_day "v" "apk" "1970-01-01" initDB
    ⟨"v", "apk", "http://x", 0⟩ [⟨"v", "apk", "http://y", 5⟩]
    (by decide) (by decide) (by decide) (by decide)

/-- C2: after any sequence of operations from the empty database — any mix
of counted, duplicate and rejected outcomes — every link's stored
`totalCount` equals its number of ledger rows, every `getStats` entry reports
that same number, and the ledger rows for a link are exactly its counted
clicks, so N distinct-triple counted clicks yield a reported total of N. -/
theorem counter_matches_ledger (reqs : List Req) (l : String) :
    counterOf (runClicks initDB reqs).2.counts l = ledgerCount (runClicks initDB reqs).2 l ∧
    (∀ e : StatItem, (l, e) ∈ getStats (runClicks initDB reqs).2 none →
      e.totalCount = ledgerCount (runClicks initDB reqs).2 l) ∧
    ledgerCount (runClicks initDB reqs).2 l =
      (reqs.zip (runClicks initDB reqs).1).countP
        (fun p => p.1.linkId == l && isCounted p.2) := by
  obtain ⟨hc, hn⟩ := inv_runClicks reqs initDB (fun x => rfl) (by simp [initDB])
  refine ⟨hc l, ?_, ?_⟩
  · intro e he
    rcases (mem_getStats_none _ l e).1 he with ⟨c, hcmem, hcl, rfl⟩
    calc (⟨c.linkUrl, c.totalCount, c.createdAt⟩ : StatItem).totalCount
        = c.totalCount := rfl
      _ = counterOf (runClicks initDB reqs).2.counts c.linkId :=
          totalCount_of_mem_nodup _ hn c hcmem
      _ = counterOf (runClicks initDB reqs).2.counts l := by rw [hcl]
      _ = ledgerCount (runClicks initDB reqs).2 l := hc l
  · have hled := runClicks_ledger reqs initDB
    unfold ledgerCount
    rw [hled]
    simp only [initDB, List.nil_append]
    exact countedRows_count _ l

/-- C8 (modelled from the spec, `listClickedLinksToday` having no
implementation under `src/`): after any run from the empty database, a link
is in `listClickedLinksToday v now` exactly when some request of the run by
visitor `v` for that link, carrying the same UTC+3 day key as `now`, was
answered `counted` — so links clicked only on a prior day are excluded. -/
theorem list_clicked_today_exact (reqs : List Req) (v : String) (now : Nat) (l : String) :
    l ∈ listClickedLinksToday (runClicks initDB reqs).2 v now ↔
      ∃ p ∈ reqs.zip (runClicks initDB reqs).1,
        p.1.userId = v ∧ p.1.linkId = l ∧
        getNairobiDateString p.1.now = getNairobiDateString now ∧
        isCounted p.2 = true := by
  rw [mem_listClickedLinksToday]
  have hled := runClicks_ledger reqs initDB
  rw [hled]
  simp only [initDB, List.nil_append, countedRows, List.mem_filterMap]
  constructor
  · rintro ⟨r, ⟨p, hp, hfp⟩, h1, h2, h3⟩
    cases hc : isCounted p.2 with
    | false => rw [hc] at hfp; simp at hfp
    | true =>
      rw [hc] at hfp
      simp only [if_true, Option.some.injEq] at hfp
      subst hfp
      exact ⟨p, hp, h1, h3, h2, hc⟩
  · rintro ⟨p, hp, h1, h2, h3, h4⟩
    refine ⟨rowOf p.1, ⟨p, hp, by rw [h4]; simp⟩, h1, ?_, h2⟩
    simpa [rowOf] using h3

/-- Invariant of the concurrency model, preserved along any schedule: the
task phases partition the K tasks; at most one task ever passes its insert;
the triple sits in the ledger exactly when a task has passed its insert; the
counter total grows by one per completed increment; and once any task has
taken its insert step, exactly one task is past the insert. -/
theorem runSched_inv (u l url : String) (now : Nat) (K c0 : Nat) (acts : List Act)
    (s s' : CState) (hrun : runSched u l url now acts s = some s')
    (hinv : s.pending + s.mid + s.dup + s.cnt = K ∧ s.mid + s.cnt ≤ 1 ∧
      hasTriple s.db.user_clicks u l (getNairobiDateString now)
        = decide (1 ≤ s.mid + s.cnt) ∧
      counterOf s.db.counts l = c0 + s.cnt ∧
      (1 ≤ s.dup + s.mid + s.cnt → s.mid + s.cnt = 1)) :
    s'.pending + s'.mid + s'.dup + s'.cnt = K ∧ s'.mid + s'.cnt ≤ 1 ∧
      hasTriple s'.db.user_clicks u l (getNairobiDateString now)
        = decide (1 ≤ s'.mid + s'.cnt) ∧
      counterOf s'.db.counts l = c0 + s'.cnt ∧
      (1 ≤ s'.dup + s'.mid + s'.cnt → s'.mid + s'.cnt = 1) := by
  induction acts generalizing s with
  | nil =>
    simp only [runSched, Option.some.injEq] at hrun
    subst hrun
    exact hinv
  | cons a as ih =>
    obtain ⟨sdb, sp, sm, sdup, scnt⟩ := s
    obtain ⟨i1, i2, i3, i4, i5⟩ := hinv
    simp only at i1 i2 i3 i4 i5
    cases a with
    | doInsert =>
      cases sp with
      | zero =>
        simp [runSched, stepAct] at hrun
      | succ p =>
        cases hT : hasTriple sdb.user_clicks u l (getNairobiDateString now) with
        | true =>
          simp only [runSched, stepAct, hT, if_true] at hrun
          rw [hT] at i3
          have hmc : sm + scnt = 1 := by
            have := of_decide_eq_true i3.symm
            omega
          refine ih _ hrun ⟨by simp; omega, by simp; omega, ?_, by simpa using i4, ?_⟩
          · simp [hT, hmc]
          · simp [hmc]
        | false =>
          simp only [runSched, stepAct, hT, if_false] at hrun
          rw [hT] at i3
          have hmc : sm + scnt = 0 := by
            by_cases h : 1 ≤ sm + scnt
            · rw [decide_eq_true h] at i3; cases i3
            · omega
          refine ih _ hrun ⟨by simp; omega, by simp; omega, ?_, by simpa using i4, ?_⟩
          · have hT' := hasTriple_append_self sdb.user_clicks u l url
              (getNairobiDateString now) now
            simp only [CState.db]
            rw [hT']
            have : 1 ≤ sm + 1 + scnt := by omega
            rw [decide_eq_true this]
          · intro
            simp
            omega
    | doInc =>
      cases sm with
      | zero =>
        simp [runSched, stepAct] at hrun
      | succ m =>
        simp only [runSched, stepAct] at hrun
        have hm0 : m = 0 ∧ scnt = 0 := by omega
        refine ih _ hrun ⟨by simp; omega, by simp; omega, ?_, ?_, ?_⟩
        · simp only [CState.db]
          rw [i3]
          have h1 : (1:Nat) ≤ m + 1 + scnt := by omega
          have h2 : (1:Nat) ≤ m + (scnt + 1) := by omega
          rw [decide_eq_true h1, decide_eq_true h2]
        · simp only [CState.db]
          rw [counterOf_updateCounts_self, i4]
          omega
        · intro
          simp
          omega

/-- C5: K in-flight `processClick` calls with an identical (visitor, link,
day) triple, interleaving their two atomic storage operations in any order
under any schedule that runs every task to completion, end with exactly one
task counted, the other K−1 observing the duplicate-key `alreadyClicked`,
and the link's counter larger by exactly one. -/
theorem concurrent_identical_clicks (db0 : DB) (u l url : String) (now : Nat)
    (K : Nat) (acts : List Act) (s' : CState)
    (hK : 1 ≤ K)
    (h0 : hasTriple db0.user_clicks u l (getNairobiDateString now) = false)
    (hrun : runSched u l url now acts ⟨db0, K, 0, 0, 0⟩ = some s')
    (hp : s'.pending = 0) (hm : s'.mid = 0) :
    s'.cnt = 1 ∧ s'.dup = K - 1 ∧
    counterOf s'.db.counts l = counterOf db0.counts l + 1 := by
  have hinv := runSched_inv u l url now K (counterOf db0.counts l) acts
      ⟨db0, K, 0, 0, 0⟩ s' hrun
      ⟨by simp, by simp, by simp [h0], by simp, by simp⟩
  obtain ⟨j1, j2, j3, j4, j5⟩ := hinv
  rw [hp, hm] at j1
  rw [hm] at j2 j5
  have hcnt : s'.cnt = 1 := by
    have := j5 (by omega)
    omega
  exact ⟨hcnt, by omega, by rw [j4, hcnt]⟩

/-- Witness for C5: two simultaneous identical clicks, scheduled as insert,
insert, increment — one counted, one duplicate, counter up by one. -/
theorem concurrent_identical_clicks_witness :
    (⟨⟨[⟨"v", "apk", "http://x", "1970-01-01", 0⟩], [⟨"apk", "http://x", 1, 0⟩]⟩,
        0, 0, 1, 1⟩ : CState).cnt = 1 ∧
    (⟨⟨[⟨"v", "apk", "http://x", "1970-01-01", 0⟩], [⟨"apk", "http://x", 1, 0⟩]⟩,
        0, 0, 1, 1⟩ : CState).dup = 2 - 1 ∧
    counterOf (⟨⟨[⟨"v", "apk", "http://x", "1970-01-01", 0⟩],
        [⟨"apk", "http://x", 1, 0⟩]⟩, 0, 0, 1, 1⟩ : CState).db.counts "apk" =
      counterOf initDB.counts "apk" + 1 :=
  concurrent_identical_clicks initDB "v" "apk" "http://x" 0 2
    [Act.doInsert, Act.doInsert, Act.doInc]
    ⟨⟨[⟨"v", "apk", "http://x", "1970-01-01", 0⟩], [⟨"apk", "http://x", 1, 0⟩]⟩,
      0, 0, 1, 1⟩
    (by decide) (by decide) (by decide) (by decide) (by decide)
